import Mathlib

/-!
Verification of the orchestrator core: the pattern learning store
(`orchestrator/learning_store.py`) and the defensive LLM-output layer
(`orchestrator/utils.py`).

The Python code is shallowly embedded: the JSONL store file is a list of
lines (blank or holding one serialized pattern record), floats are modelled
as rationals (Python float division `s / t` is modelled by exact rational
division), and each store method becomes a pure function from the old file
contents to its result and the new file contents.
-/

namespace Orchestrator

/-- Citation record (`orchestrator/models.py`, `class Citation`).  All fields
are strings in the serialized JSONL form used by the learning store. -/
structure Citation where
  source_type : String
  source_id : String
  source_url : String
  excerpt : String
  retrieved_at : String
deriving DecidableEq, Repr

/-- One pattern record as serialized to `data/patterns.jsonl` by
`LearningStore.record_pattern` (learning_store.py lines 51-71). -/
structure Pattern where
  pattern_id : String
  issue_pattern : String
  recommendation : String
  citations : List Citation
  outcome : Option String
  successful_resolutions : Nat
  total_uses : Nat
  confidence : ℚ
  created_at : String
  updated_at : String
deriving DecidableEq, Repr

/-- Read-only projection returned by `find_matching_patterns`
(`orchestrator/models.py`, `class PatternMatch`). -/
structure PatternMatch where
  pattern_id : String
  description : String
  confidence : ℚ
  successful_resolutions : Nat
  citations : List Citation
deriving DecidableEq, Repr

/-- One line of the JSONL store file: blank, or one serialized record.
Reading code skips blank lines (`if not line.strip(): continue`). -/
inductive FileLine where
  | blank
  | record (p : Pattern)
deriving DecidableEq, Repr

/-- The store file: `none` when `patterns_file` does not exist. -/
abbrev StoreFile := Option (List FileLine)

/-- The pattern records held in the store file, in file order
(blank lines skipped, as every reader of the file does). -/
def storeRecords : StoreFile → List Pattern
  | none => []
  | some ls => ls.filterMap fun
      | .blank => none
      | .record p => some p

/-- The record built by `record_pattern` (learning_store.py lines 51-71).
`pattern_id` and `timestamp` are inputs here: the id is derived in Python
from an md5 hash of the current time plus the pattern text, which is
irrelevant to the claims under verification. -/
def mkPattern (pattern_id timestamp issue_pattern recommendation : String)
    (citations : List Citation) (outcome : Option String) : Pattern :=
  { pattern_id := pattern_id
    issue_pattern := issue_pattern
    recommendation := recommendation
    citations := citations
    outcome := outcome
    successful_resolutions := if outcome = some "resolved" then 1 else 0
    total_uses := 1
    confidence := if outcome = some "resolved" then 1 else 1/2
    created_at := timestamp
    updated_at := timestamp }

/-- Method `record_pattern` of `LearningStore` (learning_store.py lines 28-77): builds the
record and appends one line to the JSONL file (open mode "a" creates the file
when missing).  Returns the new file contents. -/
def record_pattern (store : StoreFile) (pattern_id timestamp issue_pattern recommendation : String)
    (citations : List Citation) (outcome : Option String) : StoreFile :=
  some (store.getD [] ++
    [FileLine.record (mkPattern pattern_id timestamp issue_pattern recommendation citations outcome)])

/-- Decidable check that `needle` is a prefix of `hay` (character lists). -/
def isPrefixOfChars (needle hay : List Char) : Bool :=
  decide (hay.take needle.length = needle)

/-- Python substring membership `needle in hay` on character lists. -/
def containsSub (hay needle : List Char) : Bool :=
  if isPrefixOfChars needle hay then true
  else
    match hay with
    | [] => false
    | _ :: t => containsSub t needle

/-- The match test of `find_matching_patterns` (learning_store.py lines
106-109): `issue_description.lower() in pattern.issue_pattern.lower() or
pattern.issue_pattern.lower() in issue_description.lower()`. -/
def matchesIssue (issue_description : String) (p : Pattern) : Bool :=
  containsSub p.issue_pattern.toLower.toList issue_description.toLower.toList
    || containsSub issue_description.toLower.toList p.issue_pattern.toLower.toList

/-- Projection of a stored record to a `PatternMatch`
(learning_store.py lines 113-121). -/
def toPatternMatch (p : Pattern) : PatternMatch :=
  { pattern_id := p.pattern_id
    description := p.issue_pattern
    confidence := p.confidence
    successful_resolutions := p.successful_resolutions
    citations := p.citations }

/-- Stable insertion of `x` into `l`: `x` is placed before the first element
`y` with `r x y`; with `r` reading "x may precede y" this realizes a stable
sort, as Python guarantees for `list.sort`. -/
def insertStable (r : α → α → Bool) (x : α) : List α → List α
  | [] => [x]
  | y :: ys => if r x y then x :: y :: ys else y :: insertStable r x ys

/-- Stable insertion sort; models Python `list.sort`, which is stable. -/
def sortStable (r : α → α → Bool) : List α → List α
  | [] => []
  | x :: xs => insertStable r x (sortStable r xs)

/-- Comparator for `matches.sort(key=lambda m: m.confidence, reverse=True)`:
descending by confidence, stable on ties. -/
def confGe (a b : PatternMatch) : Bool := b.confidence ≤ a.confidence

/-- The per-record filter of `find_matching_patterns` (lines 98-121): keep a
record when the bidirectional case-insensitive substring test succeeds and
`pattern.confidence >= min_confidence`. -/
def matchFilter (issue_description : String) (min_confidence : ℚ) (line : FileLine) :
    Option PatternMatch :=
  match line with
  | .blank => none
  | .record p =>
    if matchesIssue issue_description p && decide (min_confidence ≤ p.confidence)
    then some (toPatternMatch p) else none

/-- Method `find_matching_patterns` of `LearningStore` (learning_store.py lines 79-125):
returns `[]` when the file does not exist; otherwise filters the records and
sorts by confidence descending (stable). -/
def find_matching_patterns (store : StoreFile) (issue_description : String)
    (min_confidence : ℚ) : List PatternMatch :=
  match store with
  | none => []
  | some ls => sortStable confGe (ls.filterMap (matchFilter issue_description min_confidence))

/-- The in-place mutation of a matching record inside `update_outcome`
(learning_store.py lines 152-161): bump `total_uses`, bump
`successful_resolutions` iff resolved, recompute the confidence ratio,
stamp `updated_at`. -/
def updatePattern (p : Pattern) (outcome now : String) : Pattern :=
  let total := p.total_uses + 1
  let succ := if outcome = "resolved" then p.successful_resolutions + 1
              else p.successful_resolutions
  { p with
    outcome := some outcome
    total_uses := total
    successful_resolutions := succ
    confidence := (succ : ℚ) / (total : ℚ)
    updated_at := now }

/-- Loop body of `update_outcome` (lines 144-164): skip blank lines, update
records whose id matches (setting the `updated` flag), append every record to
the accumulator. -/
def updateStep (pattern_id outcome now : String) (acc : List Pattern × Bool)
    (line : FileLine) : List Pattern × Bool :=
  match line with
  | .blank => acc
  | .record p =>
    if p.pattern_id = pattern_id then (acc.1 ++ [updatePattern p outcome now], true)
    else (acc.1 ++ [p], acc.2)

/-- Method `update_outcome` of `LearningStore` (learning_store.py lines 127-172): returns
the flag and the new file contents.  The file is rewritten (one record per
line, blank lines dropped) only when a record was updated. -/
def update_outcome (store : StoreFile) (pattern_id outcome now : String) :
    Bool × StoreFile :=
  match store with
  | none => (false, none)
  | some ls =>
    let res := ls.foldl (updateStep pattern_id outcome now) ([], false)
    if res.2 then (true, some (res.1.map FileLine.record)) else (false, some ls)

/-- One call against the store, for stating sequence claims. -/
inductive StoreOp where
  | record (pattern_id timestamp issue_pattern recommendation : String)
      (citations : List Citation) (outcome : Option String)
  | update (pattern_id outcome now : String)
deriving Repr

/-- Apply one store call to the file contents. -/
def applyOp (store : StoreFile) : StoreOp → StoreFile
  | .record pid ts ip rc cits outcome => record_pattern store pid ts ip rc cits outcome
  | .update pid outcome now => (update_outcome store pid outcome now).2

/-- Run a sequence of store calls from the given file contents. -/
def execOps (ops : List StoreOp) (store : StoreFile) : StoreFile :=
  ops.foldl applyOp store

/-- Invariant actually maintained by the store for every record at rest:
the counters are in range, and the confidence is the exact success ratio
except for a record created with a non-"resolved" outcome that has never
been updated, which holds the neutral initial confidence 1/2. -/
def PatternInv (p : Pattern) : Prop :=
  1 ≤ p.total_uses ∧ p.successful_resolutions ≤ p.total_uses ∧
    (p.confidence = (p.successful_resolutions : ℚ) / (p.total_uses : ℚ) ∨
      (p.confidence = 1/2 ∧ p.successful_resolutions = 0 ∧ p.total_uses = 1 ∧
        p.outcome ≠ some "resolved"))

/-- What one loop pass of `update_outcome` keeps from a line: blank lines are
skipped, the matching record is updated, every other record passes through. -/
def updLine (pattern_id outcome now : String) : FileLine → Option Pattern
  | .blank => none
  | .record p => some (if p.pattern_id = pattern_id then updatePattern p outcome now else p)

/-- Whether a line holds the record `update_outcome` is looking for. -/
def lineHasId (pattern_id : String) : FileLine → Bool
  | .blank => false
  | .record p => p.pattern_id = pattern_id

/-- The extractor behind `storeRecords`. -/
def lineRecord : FileLine → Option Pattern
  | .blank => none
  | .record p => some p

/-- JSON values as produced by Python `json.loads`.  Numbers keep their source
lexeme: the claims under verification concern which structure is recovered,
never numeric arithmetic. -/
inductive Json where
  | obj (fields : List (String × Json))
  | arr (items : List Json)
  | str (text : String)
  | num (lexeme : String)
  | bool (b : Bool)
  | null

/-- Whitespace skipped by the json module between tokens. -/
def jsonWs (c : Char) : Bool := c = ' ' || c = '\t' || c = '\n' || c = '\r'

/-- Drop leading JSON whitespace. -/
def skipWs (cs : List Char) : List Char := cs.dropWhile jsonWs

/-- Whitespace for Python `str.strip()` (the ASCII set; the strings under
verification are ASCII). -/
def pyWs (c : Char) : Bool :=
  c = ' ' || c = '\t' || c = '\n' || c = '\r' || c = '\x0b' || c = '\x0c'

/-- Python `str.strip()` on a character list. -/
def pyStripChars (cs : List Char) : List Char :=
  ((cs.dropWhile pyWs).reverse.dropWhile pyWs).reverse

/-- Python `str.strip()`. -/
def pyStrip (s : String) : String := String.mk (pyStripChars s.toList)

/-- Value of one hexadecimal digit, by code point: digits 48-57, lowercase
letters 97-102, uppercase letters 65-70. -/
def hexVal (c : Char) : Option Nat :=
  let n := c.toNat
  if 48 ≤ n && n ≤ 57 then some (n - 48)
  else if 97 ≤ n && n ≤ 102 then some (n - 87)
  else if 65 ≤ n && n ≤ 70 then some (n - 55)
  else none

/-- Four hex digits of a \u escape. -/
def parseHex4 : List Char → Option (Nat × List Char)
  | a :: b :: c :: d :: cs =>
    match hexVal a, hexVal b, hexVal c, hexVal d with
    | some va, some vb, some vc, some vd =>
      some (((va * 16 + vb) * 16 + vc) * 16 + vd, cs)
    | _, _, _, _ => none
  | _ => none

/-- Body of a JSON string after the opening quote, handling the escape set of
the json module; returns the decoded content and the text after the closing
quote.  Raw control characters are rejected (strict mode), and a \u escape
becomes the scalar it denotes. -/
def parseStringBody : Nat → List Char → Option (List Char × List Char)
  | 0, _ => none
  | _, [] => none
  | fuel+1, ch :: cs =>
    if ch = '"' then some ([], cs)
    else if ch = '\\' then
      match cs with
      | [] => none
      | e :: cs1 =>
        if e = '"' then (parseStringBody fuel cs1).map (fun r => ('"' :: r.1, r.2))
        else if e = '\\' then (parseStringBody fuel cs1).map (fun r => ('\\' :: r.1, r.2))
        else if e = '/' then (parseStringBody fuel cs1).map (fun r => ('/' :: r.1, r.2))
        else if e = 'b' then (parseStringBody fuel cs1).map (fun r => ('\x08' :: r.1, r.2))
        else if e = 'f' then (parseStringBody fuel cs1).map (fun r => ('\x0c' :: r.1, r.2))
        else if e = 'n' then (parseStringBody fuel cs1).map (fun r => ('\n' :: r.1, r.2))
        else if e = 'r' then (parseStringBody fuel cs1).map (fun r => ('\r' :: r.1, r.2))
        else if e = 't' then (parseStringBody fuel cs1).map (fun r => ('\t' :: r.1, r.2))
        else if e = 'u' then
          match parseHex4 cs1 with
          | none => none
          | some (n, cs2) => (parseStringBody fuel cs2).map (fun r => (Char.ofNat n :: r.1, r.2))
        else none
    else if ch.toNat < 0x20 then none
    else (parseStringBody fuel cs).map (fun r => (ch :: r.1, r.2))

/-- The JSON number grammar used by the json module scanner:
`-? (0 | [1-9][0-9]*) (. [0-9]+)? ([eE][+-]? [0-9]+)?`; returns the lexeme and
the rest. -/
def parseNumber (cs : List Char) : Option (List Char × List Char) :=
  let signed := fun (pre : List Char) (cs1 : List Char) =>
    match cs1 with
    | [] => none
    | d :: t =>
      if d = '0' then some (pre ++ [d], t)
      else if d.isDigit then
        some (pre ++ d :: t.takeWhile Char.isDigit, t.dropWhile Char.isDigit)
      else none
  let withInt :=
    match cs with
    | '-' :: t => signed ['-'] t
    | _ => signed [] cs
  match withInt with
  | none => none
  | some (lex1, r1) =>
    let (lex2, r2) :=
      match r1 with
      | '.' :: t =>
        if (t.takeWhile Char.isDigit).isEmpty then (lex1, r1)
        else (lex1 ++ '.' :: t.takeWhile Char.isDigit, t.dropWhile Char.isDigit)
      | _ => (lex1, r1)
    let (lex3, r3) :=
      match r2 with
      | e :: t =>
        if e = 'e' || e = 'E' then
          match t with
          | s :: t1 =>
            if s = '+' || s = '-' then
              if (t1.takeWhile Char.isDigit).isEmpty then (lex2, r2)
              else (lex2 ++ e :: s :: t1.takeWhile Char.isDigit, t1.dropWhile Char.isDigit)
            else if s.isDigit then
              (lex2 ++ e :: t.takeWhile Char.isDigit, t.dropWhile Char.isDigit)
            else (lex2, r2)
          | [] => (lex2, r2)
        else (lex2, r2)
      | [] => (lex2, r2)
    some (lex3, r3)

/-- Last-wins insertion into an object, keeping the first occurrence position
of a duplicated key, as Python dict assignment does. -/
def objInsert (acc : List (String × Json)) (k : String) (v : Json) : List (String × Json) :=
  if acc.any (fun kv => kv.1 = k)
  then acc.map (fun kv => if kv.1 = k then (k, v) else kv)
  else acc ++ [(k, v)]

/-- Test for a literal token prefix; returns the rest on success. -/
def dropTok (tok : List Char) (cs : List Char) : Option (List Char) :=
  if isPrefixOfChars tok cs then some (cs.drop tok.length) else none

mutual

/-- One JSON value at the current position (no leading whitespace), as the
json module scanner accepts it, including the NaN/Infinity constants Python
allows by default. -/
def parseValue : Nat → List Char → Option (Json × List Char)
  | 0, _ => none
  | fuel+1, cs =>
    match cs with
    | [] => none
    | '{' :: t =>
      match skipWs t with
      | '}' :: r => some (Json.obj [], r)
      | t1 => parseMembers fuel t1 []
    | '[' :: t =>
      match skipWs t with
      | ']' :: r => some (Json.arr [], r)
      | t1 => parseElems fuel t1 []
    | '"' :: t =>
      match parseStringBody (fuel+1) t with
      | some (content, rest) => some (Json.str (String.mk content), rest)
      | none => none
    | _ =>
      match dropTok ['t','r','u','e'] cs with
      | some r => some (Json.bool true, r)
      | none =>
      match dropTok ['f','a','l','s','e'] cs with
      | some r => some (Json.bool false, r)
      | none =>
      match dropTok ['n','u','l','l'] cs with
      | some r => some (Json.null, r)
      | none =>
      match dropTok ['N','a','N'] cs with
      | some r => some (Json.num "NaN", r)
      | none =>
      match dropTok ['I','n','f','i','n','i','t','y'] cs with
      | some r => some (Json.num "Infinity", r)
      | none =>
      match dropTok ['-','I','n','f','i','n','i','t','y'] cs with
      | some r => some (Json.num "-Infinity", r)
      | none =>
      match parseNumber cs with
      | some (lex, r) => some (Json.num (String.mk lex), r)
      | none => none

/-- Object members after the opening brace (at a key position). -/
def parseMembers : Nat → List Char → List (String × Json) → Option (Json × List Char)
  | 0, _, _ => none
  | fuel+1, cs, acc =>
    match cs with
    | '"' :: t =>
      match parseStringBody (fuel+1) t with
      | none => none
      | some (key, r1) =>
        match skipWs r1 with
        | ':' :: r2 =>
          match parseValue fuel (skipWs r2) with
          | none => none
          | some (v, r3) =>
            let acc1 := objInsert acc (String.mk key) v
            match skipWs r3 with
            | ',' :: r4 => parseMembers fuel (skipWs r4) acc1
            | '}' :: r4 => some (Json.obj acc1, r4)
            | _ => none
        | _ => none
    | _ => none

/-- Array elements after the opening bracket (at a value position). -/
def parseElems : Nat → List Char → List Json → Option (Json × List Char)
  | 0, _, _ => none
  | fuel+1, cs, acc =>
    match parseValue fuel cs with
    | none => none
    | some (v, r1) =>
      match skipWs r1 with
      | ',' :: r2 => parseElems fuel (skipWs r2) (acc ++ [v])
      | ']' :: r2 => some (Json.arr (acc ++ [v]), r2)
      | _ => none

end

/-- Python `json.loads`: one JSON document, optionally surrounded by
whitespace, with nothing after it. -/
def jsonLoads (s : String) : Option Json :=
  let cs := skipWs s.toList
  match parseValue (2 * cs.length + 4) cs with
  | some (v, rest) => if (skipWs rest).isEmpty then some v else none
  | none => none

/-- The character class `[^\x7b\x7d]` of the balanced pattern: anything but
the two delimiters. -/
def nonDelim (o c ch : Char) : Bool := ch ≠ o && ch ≠ c

/-- One nested group of the balanced-object regex: an opening delimiter,
non-delimiter characters, a closing delimiter (the inner alternative
`\x7b[^\x7b\x7d]*\x7d` of the pattern in utils.py line 67). -/
def scanGroup (o c : Char) : List Char → Option (List Char × List Char)
  | [] => none
  | x :: t =>
    if x = o then
      match t.dropWhile (nonDelim o c) with
      | y :: r =>
        if y = c then some (x :: t.takeWhile (nonDelim o c) ++ [y], r)
        else none
      | [] => none
    else none

/-- The repetition `(?:[^\x7b\x7d]|(?:\x7b[^\x7b\x7d]*\x7d))*` of the
balanced-object pattern: consume units greedily and stop at the first
unit-level closing delimiter (which neither alternative can consume); the
regex has no other successful stop, because giving a unit back never lands on
a closing delimiter.  Returns the consumed units and the rest (whose head is
the closing delimiter). -/
def scanUnits (o c : Char) : Nat → List Char → Option (List Char × List Char)
  | 0, _ => none
  | _, [] => none
  | fuel+1, x :: t =>
    if x = c then some ([], x :: t)
    else if x = o then
      match scanGroup o c (x :: t) with
      | none => none
      | some (g, r) =>
        match scanUnits o c fuel r with
        | none => none
        | some (u, r1) => some (g ++ u, r1)
    else
      match scanUnits o c fuel t with
      | none => none
      | some (u, r1) => some (x :: u, r1)

/-- One regex match attempt of the balanced pattern at the current position
(which must hold the opening delimiter). -/
def scanMatchAt (o c : Char) (cs : List Char) : Option (List Char × List Char) :=
  match cs with
  | [] => none
  | x :: t =>
    if x = o then
      match scanUnits o c (t.length + 1) t with
      | some (u, rest) =>
        match rest with
        | y :: r => if y = c then some (x :: u ++ [y], r) else none
        | [] => none
      | none => none
    else none

/-- Model of `re.findall` for the balanced pattern: leftmost matches, non-overlapping,
resuming after each match. -/
def findAllBalanced (o c : Char) : Nat → List Char → List String
  | 0, _ => []
  | _, [] => []
  | fuel+1, x :: t =>
    if x = o then
      match scanMatchAt o c (x :: t) with
      | some (m, r) => String.mk m :: findAllBalanced o c fuel r
      | none => findAllBalanced o c fuel t
    else findAllBalanced o c fuel t

/-- All matches of the balanced pattern in the text. -/
def findAll (o c : Char) (cs : List Char) : List String :=
  findAllBalanced o c (cs.length + 1) cs

/-- Comparator for `sorted(matches, key=len, reverse=True)` (utils.py line
74): descending by length, stable on ties. -/
def lenGe (a b : String) : Bool := b.length ≤ a.length

/-- Try `json.loads` on each candidate in order, first success wins
(utils.py lines 74-78). -/
def firstParse : List String → Option Json
  | [] => none
  | m :: t =>
    match jsonLoads m with
    | some v => some v
    | none => firstParse t

/-- Stage 3 of `parse_llm_json` (utils.py lines 64-78): scan for balanced
objects, longest first, then balanced arrays, longest first. -/
def rawScanStage (s : String) : Option Json :=
  match firstParse (sortStable lenGe (findAll '{' '}' s.toList)) with
  | some v => some v
  | none => firstParse (sortStable lenGe (findAll '[' ']' s.toList))

/-- The backtick character (code point 96). -/
def fenceChar : Char := Char.ofNat 96

/-- A markdown fence: three backticks. -/
def fence : List Char := [fenceChar, fenceChar, fenceChar]

/-- The opening of a tagged fence, compared case-insensitively. -/
def fenceJson : List Char := fence ++ ['j','s','o','n']

/-- Case-insensitive prefix test (the needle is given in lowercase). -/
def isPrefixOfCharsCI (needle hay : List Char) : Bool :=
  decide ((hay.take needle.length).map Char.toLower = needle)

/-- Split at the first (case-insensitive) occurrence of the needle, returning
the text before it and the text after it. -/
def splitAtSubCI (needle : List Char) : Nat → List Char → Option (List Char × List Char)
  | 0, _ => none
  | fuel+1, cs =>
    if isPrefixOfCharsCI needle cs then some ([], cs.drop needle.length)
    else
      match cs with
      | [] => none
      | x :: t =>
        match splitAtSubCI needle fuel t with
        | some (pre, post) => some (x :: pre, post)
        | none => none

/-- Model of `re.findall` for a fenced-block pattern: find the opening fence, then the
lazy group runs to the next closing fence; the scan resumes after the closing
fence.  The group's surrounding `\s*` is immaterial because the caller strips
each match before parsing. -/
def mdMatches (opening : List Char) : Nat → List Char → List String
  | 0, _ => []
  | fuel+1, cs =>
    match splitAtSubCI opening (cs.length + 1) cs with
    | none => []
    | some (_, rest) =>
      match splitAtSubCI fence (rest.length + 1) rest with
      | none => []
      | some (content, rest1) => String.mk content :: mdMatches opening fuel rest1

/-- Try `json.loads` on each stripped fenced block, first success wins
(utils.py lines 56-62). -/
def firstParseStripped : List String → Option Json
  | [] => none
  | m :: t =>
    match jsonLoads (pyStrip m) with
    | some v => some v
    | none => firstParseStripped t

/-- Stage 2 of `parse_llm_json` (utils.py lines 50-62): fenced blocks tagged
`json` first, then untagged fenced blocks. -/
def mdStage (s : String) : Option Json :=
  match firstParseStripped (mdMatches fenceJson (s.length + 1) s.toList) with
  | some v => some v
  | none => firstParseStripped (mdMatches fence (s.length + 1) s.toList)

/-- The failure modes of `parse_llm_json`; both are `ValueError` in Python,
distinguished by message (the spec calls them EmptyInputError and
ExtractionError). -/
inductive PyError where
  | emptyResponse
  | couldNotExtract (preview : String)
deriving DecidableEq, Repr

/-- The bounded preview in the extraction failure message (utils.py line 81):
`response[:200] + ("..." if len(response) > 200 else "")`. -/
def previewOf (response : String) : String :=
  String.mk (response.toList.take 200) ++ (if 200 < response.length then "..." else "")

/-- Function `parse_llm_json` (utils.py lines 23-82): the ordered fallback chain —
empty check, direct parse, fenced blocks, balanced raw scan, error with
preview. -/
def parse_llm_json (response : String) : Except PyError Json :=
  if (pyStripChars response.toList).isEmpty then .error .emptyResponse
  else
    match jsonLoads response with
    | some v => .ok v
    | none =>
      match mdStage response with
      | some v => .ok v
      | none =>
        match rawScanStage response with
        | some v => .ok v
        | none => .error (.couldNotExtract (previewOf response))

/-- The message of the `ValueError` raised by `parse_llm_json` (utils.py lines
42 and 82); only used as retry feedback text. -/
def PyError.message : PyError → String
  | .emptyResponse => "Empty response from LLM"
  | .couldNotExtract p => "Could not extract valid JSON from LLM response. Preview: " ++ p

/-- The exceptions that can leave the retry loop of `call_agent_with_retry`:
the `ValueError` of `parse_llm_json`, the pydantic `ValidationError`, any
exception from the agent call, and the loop-exhausted `ValueError` of utils.py
line 322. -/
inductive RetryError where
  | parseError (e : PyError)
  | validationError (msg : String)
  | agentError (msg : String)
  | allAttemptsFailed (n : Nat) (lastError : Option String)
deriving DecidableEq, Repr

/-- Whether an error is the loop-exhausted wrapper of utils.py line 322 (the
spec's RetryExhaustedError). -/
def RetryError.isAllAttemptsFailed : RetryError → Bool
  | .allAttemptsFailed _ _ => true
  | _ => false

/-- The `str(e)`-style text recorded as `last_error` for feedback. -/
def RetryError.message : RetryError → String
  | .parseError e => e.message
  | .validationError m => "Schema validation failed: " ++ m
  | .agentError m => m
  | .allAttemptsFailed n _ => "All " ++ toString n ++ " attempts failed"

/-- Boolean success test for an `Except` result. -/
def exceptIsOk : Except ε α → Bool
  | .ok _ => true
  | .error _ => false

/-- One pass of the retry loop body (utils.py lines 277-318): call the agent
(`invoke` is given the attempt index and the previous error, which determine
the prompt), parse the response with `parse_llm_json`, validate the parsed
JSON against the pydantic schema (`validate` abstracts `schema(**json_data)`).
The try/except ladder reduces to this: whichever step fails first produces
the attempt's error. -/
def oneAttempt (invoke : Nat → Option String → Except String String)
    (validate : Json → Except String T) (attempt : Nat) (lastError : Option String) :
    Except RetryError T :=
  match invoke attempt lastError with
  | .error msg => .error (.agentError msg)
  | .ok response =>
    match parse_llm_json response with
    | .error e => .error (.parseError e)
    | .ok j =>
      match validate j with
      | .error m => .error (.validationError m)
      | .ok t => .ok t

/-- The loop of `call_agent_with_retry` (utils.py lines 276-322), with
`remaining = max_retries - attempt`.  On a failed attempt the loop continues
when `attempt < max_retries - 1` (that is, `remaining ≠ 1` on entry), and
otherwise re-raises the attempt's own error; the final line 322 `ValueError`
is reached only when the loop body never ran.  The second component counts
agent invocations. -/
def retryGo (invoke : Nat → Option String → Except String String)
    (validate : Json → Except String T) (maxRetries : Nat) :
    Nat → Nat → Option String → Except RetryError T × Nat
  | 0, _, lastError => (.error (.allAttemptsFailed maxRetries lastError), 0)
  | remaining+1, attempt, lastError =>
    match oneAttempt invoke validate attempt lastError with
    | .ok t => (.ok t, 1)
    | .error e =>
      if remaining = 0 then (.error e, 1)
      else
        let r := retryGo invoke validate maxRetries remaining (attempt+1) (some e.message)
        (r.1, r.2 + 1)

/-- Function `call_agent_with_retry` (utils.py lines 235-322). -/
def call_agent_with_retry (invoke : Nat → Option String → Except String String)
    (validate : Json → Except String T) (maxRetries : Nat := 3) :
    Except RetryError T × Nat :=
  retryGo invoke validate maxRetries maxRetries 0 none

/-- The `last_error` value in hand when the loop reaches the given attempt
index, assuming every earlier attempt failed (the only case where it is
consulted). -/
def lastErrorBefore (invoke : Nat → Option String → Except String String)
    (validate : Json → Except String T) : Nat → Option String
  | 0 => none
  | k+1 =>
    match oneAttempt invoke validate k (lastErrorBefore invoke validate k) with
    | .error e => some e.message
    | .ok _ => none

/-- The error produced by the given attempt (meaningful when that attempt
fails; the fallback constructor is never hit under an all-attempts-fail
hypothesis). -/
def attemptErrorAt (invoke : Nat → Option String → Except String String)
    (validate : Json → Except String T) (k : Nat) : RetryError :=
  match oneAttempt invoke validate k (lastErrorBefore invoke validate k) with
  | .error e => e
  | .ok _ => .allAttemptsFailed 0 none

/-- The grammar of the repetition in the balanced pattern: a sequence of
units, each a non-delimiter character or a once-nested group.  A full match
of the pattern is an opening delimiter, a `UnitSeq`, and a closing
delimiter. -/
inductive UnitSeq (o c : Char) : List Char → Prop where
  | nil : UnitSeq o c []
  | chr (x : Char) (t : List Char) : x ≠ o → x ≠ c → UnitSeq o c t →
      UnitSeq o c (x :: t)
  | grp (w t : List Char) : (∀ ch ∈ w, ch ≠ o ∧ ch ≠ c) → UnitSeq o c t →
      UnitSeq o c (o :: w ++ c :: t)

theorem storeRecords_some (ls : List FileLine) :
    storeRecords (some ls) = ls.filterMap lineRecord := by
  rfl

theorem updateStep_foldl (pid oc now : String) (ls : List FileLine) :
    ∀ acc b, ls.foldl (updateStep pid oc now) (acc, b)
      = (acc ++ ls.filterMap (updLine pid oc now), b || ls.any (lineHasId pid)) := by
  induction ls with
  | nil => simp
  | cons l t ih =>
    intro acc b
    cases l with
    | blank => simpa [updateStep, updLine, lineHasId] using ih acc b
    | record p =>
      by_cases hp : p.pattern_id = pid
      · simp [updateStep, updLine, lineHasId, hp, ih]
      · simp [updateStep, updLine, lineHasId, hp, ih]

theorem update_outcome_some (ls : List FileLine) (pid oc now : String) :
    update_outcome (some ls) pid oc now
      = if ls.any (lineHasId pid)
        then (true, some ((ls.filterMap (updLine pid oc now)).map FileLine.record))
        else (false, some ls) := by
  simp only [update_outcome, updateStep_foldl, Bool.false_or]
  by_cases h : ls.any (lineHasId pid) <;> simp [h]

theorem updatePattern_pattern_id (p : Pattern) (oc now : String) :
    (updatePattern p oc now).pattern_id = p.pattern_id := rfl

theorem any_lineHasId (ls : List FileLine) (pid : String) :
    ls.any (lineHasId pid) = true ↔ ∃ p ∈ storeRecords (some ls), p.pattern_id = pid := by
  rw [storeRecords_some]
  simp only [List.any_eq_true, List.mem_filterMap]
  constructor
  · rintro ⟨l, hl, hid⟩
    cases l with
    | blank => simp [lineHasId] at hid
    | record p =>
      exact ⟨p, ⟨FileLine.record p, hl, rfl⟩, by simpa [lineHasId] using hid⟩
  · rintro ⟨p, ⟨l, hl, hlp⟩, hid⟩
    cases l with
    | blank => simp [lineRecord] at hlp
    | record q =>
      refine ⟨FileLine.record q, hl, ?_⟩
      simp only [lineRecord, Option.some_inj] at hlp
      simp [lineHasId, hlp, hid]

/-- Lemma: `mkPattern` satisfies the at-rest invariant: resolved records start at the
exact ratio 1/1, unresolved ones in the neutral 1/2 branch. -/
theorem mkPattern_inv (pid ts ip rc : String) (cits : List Citation)
    (outcome : Option String) : PatternInv (mkPattern pid ts ip rc cits outcome) := by
  by_cases h : outcome = some "resolved"
  · refine ⟨by simp [mkPattern, h], by simp [mkPattern, h], Or.inl ?_⟩
    simp [mkPattern, h]
  · refine ⟨by simp [mkPattern, h], by simp [mkPattern, h], Or.inr ?_⟩
    simp [mkPattern, h]

/-- Lemma: `updatePattern` restores the exact-ratio branch of the invariant. -/
theorem updatePattern_inv (p : Pattern) (oc now : String)
    (h : p.successful_resolutions ≤ p.total_uses) :
    PatternInv (updatePattern p oc now) := by
  refine ⟨by simp [updatePattern], ?_, Or.inl rfl⟩
  by_cases hr : oc = "resolved" <;> simp [updatePattern, hr] <;> omega

theorem applyOp_inv (st : StoreFile) (op : StoreOp)
    (h : ∀ p ∈ storeRecords st, PatternInv p) :
    ∀ p ∈ storeRecords (applyOp st op), PatternInv p := by
  cases op with
  | record pid ts ip rc cits outcome =>
    intro p hp
    simp only [applyOp, record_pattern, storeRecords, List.filterMap_append] at hp
    rcases List.mem_append.mp hp with hp | hp
    · apply h
      cases st with
      | none => simp at hp
      | some ls => simpa [storeRecords] using hp
    · have : p = mkPattern pid ts ip rc cits outcome := by
        simpa using hp
      rw [this]
      exact mkPattern_inv pid ts ip rc cits outcome
  | update pid oc now =>
    intro p hp
    cases st with
    | none => simp [applyOp, update_outcome, storeRecords] at hp
    | some ls =>
      simp only [applyOp, update_outcome_some] at hp
      by_cases hany : ls.any (lineHasId pid)
      · rw [if_pos hany] at hp
        rw [storeRecords_some] at hp
        simp only [List.filterMap_map] at hp
        have : ∃ l ∈ ls, updLine pid oc now l = some p := by
          simpa [Function.comp, lineRecord] using List.mem_filterMap.mp hp
        rcases this with ⟨l, hl, hlp⟩
        cases l with
        | blank => simp [updLine] at hlp
        | record q =>
          have hq : PatternInv q := by
            apply h
            rw [storeRecords_some]
            exact List.mem_filterMap.mpr ⟨FileLine.record q, hl, rfl⟩
          simp only [updLine, Option.some_inj] at hlp
          by_cases hid : q.pattern_id = pid
          · rw [if_pos hid] at hlp
            rw [← hlp]
            exact updatePattern_inv q oc now hq.2.1
          · rw [if_neg hid] at hlp
            rw [← hlp]
            exact hq
      · rw [if_neg hany] at hp
        exact h p hp

theorem mem_insertStable (r : α → α → Bool) (x a : α) (l : List α) :
    a ∈ insertStable r x l ↔ a = x ∨ a ∈ l := by
  induction l with
  | nil => simp [insertStable]
  | cons y ys ih =>
    by_cases h : r x y
    · simp [insertStable, h]
    · simp only [insertStable, if_neg h, List.mem_cons, ih]
      tauto

theorem mem_sortStable (r : α → α → Bool) (a : α) (l : List α) :
    a ∈ sortStable r l ↔ a ∈ l := by
  induction l with
  | nil => simp [sortStable]
  | cons x xs ih => simp [sortStable, mem_insertStable, ih]

theorem insertStable_pairwise (r : α → α → Bool)
    (htrans : ∀ a b c, r a b = true → r b c = true → r a c = true)
    (htot : ∀ a b, r a b = true ∨ r b a = true)
    (x : α) (l : List α) (hl : l.Pairwise (fun a b => r a b = true)) :
    (insertStable r x l).Pairwise (fun a b => r a b = true) := by
  induction l with
  | nil => simp [insertStable]
  | cons y ys ih =>
    rcases List.pairwise_cons.mp hl with ⟨hy, hys⟩
    by_cases h : r x y
    · rw [insertStable, if_pos h]
      refine List.pairwise_cons.mpr ⟨?_, hl⟩
      intro z hz
      rcases List.mem_cons.mp hz with hz | hz
      · rw [hz]; exact h
      · exact htrans x y z h (hy z hz)
    · rw [insertStable, if_neg h]
      refine List.pairwise_cons.mpr ⟨?_, ih hys⟩
      intro z hz
      rcases (mem_insertStable r x z ys).mp hz with hz | hz
      · rw [hz]
        rcases htot x y with hxy | hyx
        · exact absurd hxy h
        · exact hyx
      · exact hy z hz

theorem sortStable_pairwise (r : α → α → Bool)
    (htrans : ∀ a b c, r a b = true → r b c = true → r a c = true)
    (htot : ∀ a b, r a b = true ∨ r b a = true) (l : List α) :
    (sortStable r l).Pairwise (fun a b => r a b = true) := by
  induction l with
  | nil => simp [sortStable]
  | cons x xs ih => exact insertStable_pairwise r htrans htot x _ ih

theorem insertStable_filter (r : α → α → Bool) (q : α → Bool)
    (hq : ∀ x y, q x = true → q y = true → r x y = true) (x : α) (l : List α) :
    (insertStable r x l).filter q = if q x then x :: l.filter q else l.filter q := by
  induction l with
  | nil => by_cases h : q x <;> simp [insertStable, h]
  | cons y ys ih =>
    by_cases h : r x y
    · rw [insertStable, if_pos h]
      by_cases hx : q x <;> simp [List.filter, hx]
    · rw [insertStable, if_neg h]
      by_cases hx : q x
      · by_cases hy : q y
        · exact absurd (hq x y hx hy) h
        · simp [List.filter, hx, hy, ih]
      · by_cases hy : q y <;> simp [List.filter, hx, hy, ih]

theorem sortStable_filter (r : α → α → Bool) (q : α → Bool)
    (hq : ∀ x y, q x = true → q y = true → r x y = true) (l : List α) :
    (sortStable r l).filter q = l.filter q := by
  induction l with
  | nil => simp [sortStable]
  | cons x xs ih =>
    rw [sortStable, insertStable_filter r q hq]
    by_cases hx : q x <;> simp [List.filter, hx, ih]

theorem storeRecords_rewrite (pid oc now : String) (ls : List FileLine) :
    storeRecords (some ((ls.filterMap (updLine pid oc now)).map FileLine.record))
      = (storeRecords (some ls)).map
          (fun p => if p.pattern_id = pid then updatePattern p oc now else p) := by
  rw [storeRecords_some, storeRecords_some]
  induction ls with
  | nil => rfl
  | cons x t ih =>
    cases x with
    | blank => simpa [updLine, lineRecord] using ih
    | record q => simp [updLine, lineRecord, ih]

theorem filter_map_frame (pid oc now : String) (l : List Pattern) :
    (l.map (fun p => if p.pattern_id = pid then updatePattern p oc now else p)).filter
      (fun p => !(p.pattern_id == pid))
    = l.filter (fun p => !(p.pattern_id == pid)) := by
  induction l with
  | nil => simp
  | cons p t ih =>
    by_cases hp : p.pattern_id = pid
    · simp [List.filter, hp, updatePattern_pattern_id, ih]
    · simp [List.filter, hp, ih]

/-- C7: `record_pattern` appends exactly one record, leaving every existing
line untouched, and the new record is initialized with
`successful_resolutions = 1` iff the outcome is "resolved" (else 0),
`total_uses = 1`, and `confidence = 1.0` if resolved, else `0.5`. -/
theorem record_pattern_appends_initialized (store : StoreFile)
    (pid ts ip rc : String) (cits : List Citation) (outcome : Option String) :
    ∃ p : Pattern,
      record_pattern store pid ts ip rc cits outcome
        = some (store.getD [] ++ [FileLine.record p])
      ∧ p.successful_resolutions = (if outcome = some "resolved" then 1 else 0)
      ∧ p.total_uses = 1
      ∧ p.confidence = (if outcome = some "resolved" then (1 : ℚ) else 1/2) :=
  ⟨mkPattern pid ts ip rc cits outcome, rfl, rfl, rfl, rfl⟩

/-- C6: `update_outcome` with a pattern id not present in the store returns
false and performs no write: the store file is left exactly as it was
(including a missing file staying missing and blank lines staying put). -/
theorem update_outcome_unknown_id (store : StoreFile) (pid oc now : String)
    (h : ∀ p ∈ storeRecords store, p.pattern_id ≠ pid) :
    update_outcome store pid oc now = (false, store) := by
  cases store with
  | none => rfl
  | some ls =>
    rw [update_outcome_some]
    have hany : ls.any (lineHasId pid) = false := by
      rw [← Bool.not_eq_true]
      intro hc
      rcases (any_lineHasId ls pid).mp hc with ⟨p, hp, hid⟩
      exact h p hp hid
    rw [hany]
    simp

/-- Witness for C6 at a concrete one-record store and a different id. -/
theorem update_outcome_unknown_id_witness :
    update_outcome (some [FileLine.record (mkPattern "P-1" "t0" "db timeout" "restart db" [] none)])
        "P-2" "resolved" "t1"
      = (false, some [FileLine.record (mkPattern "P-1" "t0" "db timeout" "restart db" [] none)]) :=
  update_outcome_unknown_id _ _ _ _ (by decide)

/-- C10: when `update_outcome` returns true, the store file is rewritten so
that the matching record is replaced by its update while every record with a
different pattern id is rewritten with all fields unchanged, in the original
relative order. -/
theorem update_outcome_frame (store : StoreFile) (pid oc now : String)
    (h : (update_outcome store pid oc now).1 = true) :
    storeRecords (update_outcome store pid oc now).2
      = (storeRecords store).map
          (fun p => if p.pattern_id = pid then updatePattern p oc now else p)
    ∧ (storeRecords (update_outcome store pid oc now).2).filter
          (fun p => !(p.pattern_id == pid))
        = (storeRecords store).filter (fun p => !(p.pattern_id == pid)) := by
  cases store with
  | none => simp [update_outcome] at h
  | some ls =>
    rw [update_outcome_some] at h ⊢
    by_cases hany : ls.any (lineHasId pid)
    · rw [if_pos hany]
      have h1 := storeRecords_rewrite pid oc now ls
      exact ⟨h1, by rw [h1, filter_map_frame]⟩
    · rw [if_neg hany] at h
      simp at h

/-- Witness for C10 at a concrete store whose only record has the given id. -/
theorem update_outcome_frame_witness :
    storeRecords (update_outcome
          (some [FileLine.record (mkPattern "P-1" "t0" "db timeout" "restart db" [] none)])
          "P-1" "resolved" "t1").2
      = (storeRecords
          (some [FileLine.record (mkPattern "P-1" "t0" "db timeout" "restart db" [] none)])).map
          (fun p => if p.pattern_id = "P-1" then updatePattern p "resolved" "t1" else p)
    ∧ (storeRecords (update_outcome
          (some [FileLine.record (mkPattern "P-1" "t0" "db timeout" "restart db" [] none)])
          "P-1" "resolved" "t1").2).filter (fun p => !(p.pattern_id == "P-1"))
        = (storeRecords
            (some [FileLine.record (mkPattern "P-1" "t0" "db timeout" "restart db" [] none)])).filter
            (fun p => !(p.pattern_id == "P-1")) :=
  update_outcome_frame _ _ _ _ (by decide)

/-- C5: `find_matching_patterns` returns exactly those stored records whose
text matches the issue description by the bidirectional case-insensitive
substring test with confidence at or above `min_confidence` (inclusive),
sorted by confidence descending with ties keeping encounter order (stated as:
per-confidence-class subsequences are untouched), and it returns the empty
list on a store whose file was never written. -/
theorem find_matching_patterns_spec (issue_description : String) (min_confidence : ℚ) :
    find_matching_patterns none issue_description min_confidence = []
    ∧ ∀ ls : List FileLine,
      (find_matching_patterns (some ls) issue_description min_confidence).Pairwise
        (fun a b => b.confidence ≤ a.confidence)
      ∧ (∀ m, m ∈ find_matching_patterns (some ls) issue_description min_confidence ↔
          ∃ p ∈ storeRecords (some ls),
            (matchesIssue issue_description p = true ∧ min_confidence ≤ p.confidence)
            ∧ m = toPatternMatch p)
      ∧ ∀ c : ℚ,
          (find_matching_patterns (some ls) issue_description min_confidence).filter
            (fun m => decide (m.confidence = c))
          = (ls.filterMap (matchFilter issue_description min_confidence)).filter
            (fun m => decide (m.confidence = c)) := by
  refine ⟨rfl, fun ls => ⟨?_, ?_, ?_⟩⟩
  · have hp := sortStable_pairwise confGe
      (fun a b c hab hbc => decide_eq_true
        (le_trans (of_decide_eq_true hbc) (of_decide_eq_true hab)))
      (fun a b => by
        rcases le_total b.confidence a.confidence with hle | hle
        · exact Or.inl (decide_eq_true hle)
        · exact Or.inr (decide_eq_true hle))
      (ls.filterMap (matchFilter issue_description min_confidence))
    exact List.Pairwise.imp (fun hab => of_decide_eq_true hab) hp
  · intro m
    rw [find_matching_patterns, mem_sortStable, List.mem_filterMap, storeRecords_some]
    constructor
    · rintro ⟨l, hl, hlm⟩
      cases l with
      | blank => simp [matchFilter] at hlm
      | record p =>
        rw [matchFilter] at hlm
        by_cases hc : matchesIssue issue_description p && decide (min_confidence ≤ p.confidence)
        · rw [if_pos hc] at hlm
          have hc' : matchesIssue issue_description p = true ∧ min_confidence ≤ p.confidence := by
            simpa using hc
          exact ⟨p, List.mem_filterMap.mpr ⟨FileLine.record p, hl, rfl⟩,
            hc', (Option.some_inj.mp hlm).symm⟩
        · rw [if_neg hc] at hlm
          exact absurd hlm (by simp)
    · rintro ⟨p, hp, ⟨h1, h2⟩, hm⟩
      rcases List.mem_filterMap.mp hp with ⟨l, hl, hlp⟩
      cases l with
      | blank => simp [lineRecord] at hlp
      | record q =>
        simp only [lineRecord, Option.some_inj] at hlp
        refine ⟨FileLine.record q, hl, ?_⟩
        rw [matchFilter, hlp, if_pos (by simp [h1, h2]), hm]
  · intro c
    rw [find_matching_patterns]
    exact sortStable_filter confGe _
      (fun x y hx hy => decide_eq_true (by
        rw [of_decide_eq_true hx, of_decide_eq_true hy])) _

/-- Witness for C5: the empty-store clause at a concrete query, and the
descending-confidence conclusion at a concrete two-record store. -/
theorem find_matching_patterns_spec_witness :
    find_matching_patterns none "x" (7/10) = []
    ∧ (find_matching_patterns
        (some [FileLine.record (mkPattern "P-1" "t0" "x issue" "a" [] none),
               FileLine.record (mkPattern "P-2" "t0" "x issue" "b" [] (some "resolved"))])
        "x issue" (1/2)).Pairwise (fun a b => b.confidence ≤ a.confidence) :=
  ⟨(find_matching_patterns_spec "x" (7/10)).1,
   ((find_matching_patterns_spec "x issue" (1/2)).2
      [FileLine.record (mkPattern "P-1" "t0" "x issue" "a" [] none),
       FileLine.record (mkPattern "P-2" "t0" "x issue" "b" [] (some "resolved"))]).1⟩

/-- C1 counterexample: the very first call of the claimed sequence —
`record_pattern` with outcome None — leaves a pattern whose confidence is 1/2
while `successful_resolutions / total_uses = 0/1 = 0`, refuting the claimed
identity `confidence == successful_resolutions / total_uses` after every
call. -/
theorem store_confidence_counterexample :
    (storeRecords (execOps [StoreOp.record "P-1" "t0" "db timeout" "restart db" [] none] none)).map
        (fun p => (p.confidence, (p.successful_resolutions : ℚ) / (p.total_uses : ℚ)))
      = [(1/2, 0)]
    ∧ ((1 : ℚ)/2) ≠ 0 :=
  ⟨by
    rw [show storeRecords (execOps [StoreOp.record "P-1" "t0" "db timeout" "restart db" [] none] none)
        = [mkPattern "P-1" "t0" "db timeout" "restart db" [] none] from rfl]
    norm_num [mkPattern]
    simp, by norm_num⟩

/-- C1 (amended): for every sequence of `record_pattern` and `update_outcome`
calls from an empty store, every pattern at rest satisfies `total_uses ≥ 1`
and `0 ≤ successful_resolutions ≤ total_uses` after every call, and
`confidence == successful_resolutions / total_uses` holds for every pattern
except one recorded with a non-"resolved" outcome that has not yet been
updated, which instead carries the neutral initial confidence 0.5. -/
theorem store_sequence_invariant (ops : List StoreOp) :
    ∀ p ∈ storeRecords (execOps ops none), PatternInv p := by
  suffices h : ∀ st, (∀ p ∈ storeRecords st, PatternInv p) →
      ∀ p ∈ storeRecords (execOps ops st), PatternInv p by
    exact h none (by simp [storeRecords])
  induction ops with
  | nil =>
    intro st h
    simpa [execOps] using h
  | cons op t ih =>
    intro st h
    have : execOps (op :: t) st = execOps t (applyOp st op) := rfl
    rw [this]
    exact ih (applyOp st op) (applyOp_inv st op h)

/-- Witness for C1: the invariant at the single pattern left by one resolved
`record_pattern` call. -/
theorem store_sequence_invariant_witness :
    PatternInv (mkPattern "P-1" "t0" "db timeout" "restart db" [] (some "resolved")) :=
  store_sequence_invariant
    [StoreOp.record "P-1" "t0" "db timeout" "restart db" [] (some "resolved")] _ (by decide)

theorem oneAttempt_not_wrapper (invoke : Nat → Option String → Except String String)
    (validate : Json → Except String T) (a : Nat) (le : Option String) (e : RetryError)
    (hoa : oneAttempt invoke validate a le = .error e) :
    e.isAllAttemptsFailed = false := by
  rw [oneAttempt] at hoa
  cases h1 : invoke a le with
  | error msg =>
    simp only [h1] at hoa
    cases hoa
    rfl
  | ok response =>
    simp only [h1] at hoa
    cases h2 : parse_llm_json response with
    | error pe =>
      simp only [h2] at hoa
      cases hoa
      rfl
    | ok j =>
      simp only [h2] at hoa
      cases h3 : validate j with
      | error m =>
        simp only [h3] at hoa
        cases hoa
        rfl
      | ok t =>
        simp only [h3] at hoa
        cases hoa

theorem retryGo_allfail (invoke : Nat → Option String → Except String String)
    (validate : Json → Except String T) (mr : Nat)
    (hfail : ∀ a le, exceptIsOk (oneAttempt invoke validate a le) = false) :
    ∀ rem attempt, 1 ≤ rem →
      retryGo invoke validate mr rem attempt (lastErrorBefore invoke validate attempt)
        = (.error (attemptErrorAt invoke validate (attempt + rem - 1)), rem) := by
  intro rem
  induction rem with
  | zero => intro attempt h; omega
  | succ n ih =>
    intro attempt _
    cases hoa : oneAttempt invoke validate attempt (lastErrorBefore invoke validate attempt) with
    | ok t =>
      have := hfail attempt (lastErrorBefore invoke validate attempt)
      rw [hoa] at this
      simp [exceptIsOk] at this
    | error e =>
      cases n with
      | zero => simp [retryGo, attemptErrorAt, hoa]
      | succ m =>
        have hle : lastErrorBefore invoke validate (attempt + 1) = some e.message := by
          rw [lastErrorBefore, hoa]
        have hrec := ih (attempt + 1) (by omega)
        rw [hle] at hrec
        simp only [retryGo, hoa]
        rw [if_neg (Nat.succ_ne_zero m)]
        show ((retryGo invoke validate mr (m+1) (attempt+1) (some e.message)).1,
              (retryGo invoke validate mr (m+1) (attempt+1) (some e.message)).2 + 1) = _
        rw [hrec]
        have hidx : attempt + 1 + (m + 1) - 1 = attempt + (m + 1 + 1) - 1 := by omega
        rw [hidx]

/-- C2: with an Agent Invoker failing extraction on the first two attempts and
succeeding on the third, `call_with_retry` (default max_retries = 3) returns
the successful result after exactly 3 agent invocations; with an invoker that
always fails, it raises after exactly `max_retries` invocations — never more,
never fewer. -/
theorem call_with_retry_attempt_counts (invoke : Nat → Option String → Except String String)
    (validate : Json → Except String T) :
    (∀ (t : T),
        (∀ le, ∃ e, oneAttempt invoke validate 0 le = .error (.parseError e)) →
        (∀ le, ∃ e, oneAttempt invoke validate 1 le = .error (.parseError e)) →
        (∀ le, oneAttempt invoke validate 2 le = .ok t) →
        call_agent_with_retry invoke validate 3 = (.ok t, 3))
    ∧ ∀ maxRetries : Nat,
        (∀ a le, exceptIsOk (oneAttempt invoke validate a le) = false) →
        exceptIsOk (call_agent_with_retry invoke validate maxRetries).1 = false
        ∧ (call_agent_with_retry invoke validate maxRetries).2 = maxRetries := by
  constructor
  · intro t h0 h1 h2
    obtain ⟨e0, h0x⟩ := h0 none
    obtain ⟨e1, h1x⟩ := h1 (some (RetryError.parseError e0).message)
    rw [call_agent_with_retry]
    simp only [retryGo, h0x, h1x, h2]
    norm_num
  · intro maxRetries hfail
    cases maxRetries with
    | zero =>
      constructor
      · rfl
      · rfl
    | succ n =>
      have h := retryGo_allfail invoke validate (n+1) hfail (n+1) 0 (by omega)
      rw [show lastErrorBefore invoke validate 0 = none from rfl] at h
      rw [call_agent_with_retry, h]
      constructor
      · rfl
      · rfl

/-- Witness for C2: a concrete invoker whose first two responses hold no
structure and whose third is a JSON object, validated by the identity
schema. -/
theorem call_with_retry_attempt_counts_witness :
    (call_agent_with_retry
        (fun a _ => Except.ok (if a < 2 then "no structure" else "\x7b\"k\": 1\x7d"))
        (fun j : Json => Except.ok j) 3
      = (Except.ok (Json.obj [("k", Json.num "1")]), 3))
    ∧ exceptIsOk (call_agent_with_retry (fun _ _ => Except.ok "nope")
        (fun j : Json => Except.ok j) 3).1 = false
    ∧ (call_agent_with_retry (fun _ _ => Except.ok "nope")
        (fun j : Json => Except.ok j) 3).2 = 3 :=
  ⟨(call_with_retry_attempt_counts _ _).1 (Json.obj [("k", Json.num "1")])
    (fun _ => ⟨PyError.couldNotExtract "no structure", rfl⟩)
    (fun _ => ⟨PyError.couldNotExtract "no structure", rfl⟩)
    (fun _ => rfl),
   ((call_with_retry_attempt_counts (fun _ _ => Except.ok "nope")
      (fun j : Json => Except.ok j)).2 3 (fun _ _ => rfl)).1,
   ((call_with_retry_attempt_counts (fun _ _ => Except.ok "nope")
      (fun j : Json => Except.ok j)).2 3 (fun _ _ => rfl)).2⟩

/-- C3 counterexample: with max_retries = 3 and an invoker whose responses
never parse, the error leaving `call_with_retry` is the original extraction
error itself, not the "all attempts failed" wrapper error (the spec's
RetryExhaustedError), which is unreachable once the loop runs. -/
theorem retry_raises_unwrapped_counterexample :
    call_agent_with_retry (fun _ _ => Except.ok "unparseable prose")
        (fun j : Json => Except.ok j) 3
      = (Except.error (RetryError.parseError (PyError.couldNotExtract "unparseable prose")), 3)
    ∧ RetryError.isAllAttemptsFailed
        (RetryError.parseError (PyError.couldNotExtract "unparseable prose")) = false :=
  ⟨rfl, rfl⟩

/-- C3 (amended): when all `max_retries ≥ 1` attempts fail (by extraction,
validation, or an agent exception), the call fails with the last attempt's
own error — only that original error crosses the boundary, never wrapped:
the "all attempts failed" error of utils.py line 322 is not raised. -/
theorem call_with_retry_raises_original (invoke : Nat → Option String → Except String String)
    (validate : Json → Except String T) (maxRetries : Nat)
    (hmr : 1 ≤ maxRetries)
    (hfail : ∀ a le, exceptIsOk (oneAttempt invoke validate a le) = false) :
    call_agent_with_retry invoke validate maxRetries
      = (.error (attemptErrorAt invoke validate (maxRetries - 1)), maxRetries)
    ∧ (attemptErrorAt invoke validate (maxRetries - 1)).isAllAttemptsFailed = false := by
  constructor
  · have h := retryGo_allfail invoke validate maxRetries hfail maxRetries 0 hmr
    rw [show lastErrorBefore invoke validate 0 = none from rfl] at h
    rw [call_agent_with_retry, h]
    norm_num
  · rw [attemptErrorAt]
    cases hoa : oneAttempt invoke validate (maxRetries - 1)
        (lastErrorBefore invoke validate (maxRetries - 1)) with
    | ok t =>
      have := hfail (maxRetries - 1) (lastErrorBefore invoke validate (maxRetries - 1))
      rw [hoa] at this
      simp [exceptIsOk] at this
    | error e =>
      exact oneAttempt_not_wrapper invoke validate _ _ e hoa

/-- Witness for C3 at a concrete always-failing invoker with max_retries = 2. -/
theorem call_with_retry_raises_original_witness :
    call_agent_with_retry (fun _ _ => Except.ok "still prose")
        (fun j : Json => Except.ok j) 2
      = (Except.error (attemptErrorAt (fun _ _ => Except.ok "still prose")
          (fun j : Json => Except.ok j) 1), 2)
    ∧ (attemptErrorAt (fun _ _ => Except.ok "still prose")
        (fun j : Json => Except.ok j) 1).isAllAttemptsFailed = false :=
  call_with_retry_raises_original _ _ 2 (by norm_num) (fun _ _ => rfl)

/-- C8: `extract` fails with the empty-input error exactly when the input is
empty or whitespace-only; it fails with the extraction error exactly when the
input is non-empty and no stage of the fallback chain recovers a structured
value, in which case the message carries a preview that is the first 200
characters of the input (plus an ellipsis marker when the input is longer). -/
theorem parse_llm_json_error_classes (response : String) :
    (parse_llm_json response = .error .emptyResponse
      ↔ pyStripChars response.toList = [])
    ∧ ((∃ p, parse_llm_json response = .error (.couldNotExtract p))
      ↔ (pyStripChars response.toList ≠ [] ∧ jsonLoads response = none
          ∧ mdStage response = none ∧ rawScanStage response = none))
    ∧ (∀ p, parse_llm_json response = .error (.couldNotExtract p)
        → p = previewOf response)
    ∧ (response.toList.take 200).length ≤ 200 := by
  have hlen : (response.toList.take 200).length ≤ 200 := by
    rw [List.length_take]
    exact min_le_left _ _
  by_cases he : (pyStripChars response.toList).isEmpty
  · have he' : pyStripChars response.data = [] := by
      simpa [List.isEmpty_iff] using he
    have h1 : parse_llm_json response = .error .emptyResponse := by
      rw [parse_llm_json, if_pos he]
    refine ⟨by simp [h1, he'], by simp [h1, he'], ?_, hlen⟩
    intro p hp
    rw [h1] at hp
    simp at hp
  · have hne : pyStripChars response.data ≠ [] := by
      simpa [List.isEmpty_iff] using he
    cases hj : jsonLoads response with
    | some v =>
      have h1 : parse_llm_json response = .ok v := by
        rw [parse_llm_json, if_neg he, hj]
      refine ⟨by simp [h1, hne], by simp [h1, hj], ?_, hlen⟩
      intro p hp
      rw [h1] at hp
      simp at hp
    | none =>
      cases hm : mdStage response with
      | some v =>
        have h1 : parse_llm_json response = .ok v := by
          rw [parse_llm_json, if_neg he, hj, hm]
        refine ⟨by simp [h1, hne], by simp [h1, hm], ?_, hlen⟩
        intro p hp
        rw [h1] at hp
        simp at hp
      | none =>
        cases hr : rawScanStage response with
        | some v =>
          have h1 : parse_llm_json response = .ok v := by
            rw [parse_llm_json, if_neg he, hj, hm, hr]
          refine ⟨by simp [h1, hne], by simp [h1, hr], ?_, hlen⟩
          intro p hp
          rw [h1] at hp
          simp at hp
        | none =>
          have h1 : parse_llm_json response
              = .error (.couldNotExtract (previewOf response)) := by
            rw [parse_llm_json, if_neg he, hj, hm, hr]
          refine ⟨by simp [h1, hne], ?_, ?_, hlen⟩
          · constructor
            · intro _
              exact ⟨hne, rfl, rfl, rfl⟩
            · intro _
              exact ⟨previewOf response, h1⟩
          · intro p hp
            rw [h1] at hp
            simp at hp
            exact hp.symm

/-- Witness for C8: the empty input fails with the empty-input error, and a
plain-prose input is recognized as non-empty by the strip test. -/
theorem parse_llm_json_error_classes_witness :
    parse_llm_json "" = Except.error PyError.emptyResponse
    ∧ pyStripChars (String.toList "plain prose, no structure") ≠ [] :=
  ⟨(parse_llm_json_error_classes "").1.mpr rfl,
   ((parse_llm_json_error_classes "plain prose, no structure").2.1.mp
      ⟨previewOf "plain prose, no structure", rfl⟩).1⟩

theorem takeWhile_middle (p : Char → Bool) (w : List Char) (x : Char) (r : List Char)
    (hw : ∀ ch ∈ w, p ch = true) (hx : p x = false) :
    (w ++ x :: r).takeWhile p = w ∧ (w ++ x :: r).dropWhile p = x :: r := by
  induction w with
  | nil => simp [List.takeWhile_cons, List.dropWhile_cons, hx]
  | cons a t ih =>
    have ha : p a = true := hw a (by simp)
    have iht := ih (fun ch hch => hw ch (by simp [hch]))
    simp [List.takeWhile_cons, List.dropWhile_cons, ha, iht.1, iht.2]

theorem scanGroup_sound (o c : Char) (cs g r : List Char)
    (h : scanGroup o c cs = some (g, r)) :
    ∃ w, (∀ ch ∈ w, ch ≠ o ∧ ch ≠ c) ∧ g = o :: w ++ [c] ∧ cs = o :: w ++ c :: r := by
  cases cs with
  | nil => simp [scanGroup] at h
  | cons x t =>
    rw [scanGroup] at h
    by_cases hxo : x = o
    · rw [if_pos hxo] at h
      cases hd : t.dropWhile (nonDelim o c) with
      | nil => simp [hd] at h
      | cons y r1 =>
        simp only [hd] at h
        by_cases hyc : y = c
        · simp only [if_pos hyc, Option.some_inj, Prod.mk.injEq] at h
          obtain ⟨hg, hr⟩ := h
          refine ⟨t.takeWhile (nonDelim o c), ?_, ?_, ?_⟩
          · intro ch hch
            have := List.mem_takeWhile_imp hch
            simpa [nonDelim] using this
          · rw [← hg, hxo, hyc]
          · rw [hxo]
            have ht : t = t.takeWhile (nonDelim o c) ++ t.dropWhile (nonDelim o c) :=
              (List.takeWhile_append_dropWhile _ t).symm
            conv_lhs => rw [ht, hd, hyc, hr]
            rfl
        · simp [if_neg hyc] at h
    · simp [if_neg hxo] at h

theorem scanGroup_complete (o c : Char) (w rest : List Char)
    (hw : ∀ ch ∈ w, ch ≠ o ∧ ch ≠ c) :
    scanGroup o c (o :: (w ++ c :: rest)) = some (o :: w ++ [c], rest) := by
  have hmid := takeWhile_middle (nonDelim o c) w c rest
    (fun ch hch => by simp [nonDelim, (hw ch hch).1, (hw ch hch).2])
    (by simp [nonDelim])
  simp [scanGroup, hmid.1, hmid.2]

theorem scanUnits_sound (o c : Char) :
    ∀ f cs u r, scanUnits o c f cs = some (u, r) →
      ∃ r1, r = c :: r1 ∧ cs = u ++ c :: r1 ∧ UnitSeq o c u := by
  intro f
  induction f with
  | zero => intro cs u r h; simp [scanUnits] at h
  | succ n ih =>
    intro cs u r h
    cases cs with
    | nil => simp [scanUnits] at h
    | cons x t =>
      rw [scanUnits] at h
      by_cases hxc : x = c
      · rw [if_pos hxc] at h
        simp only [Option.some_inj, Prod.mk.injEq] at h
        obtain ⟨hu, hr⟩ := h
        exact ⟨t, by rw [← hr, hxc], by rw [← hu, hxc]; simp, by rw [← hu]; exact .nil⟩
      · rw [if_neg hxc] at h
        by_cases hxo : x = o
        · rw [if_pos hxo] at h
          cases hg : scanGroup o c (x :: t) with
          | none => simp [hg] at h
          | some gr =>
            simp only [hg] at h
            obtain ⟨g, r0⟩ := gr
            cases hsu : scanUnits o c n r0 with
            | none => simp [hsu] at h
            | some ur =>
              simp only [hsu] at h
              obtain ⟨u1, r2⟩ := ur
              simp only [Option.some_inj, Prod.mk.injEq] at h
              obtain ⟨hu, hr⟩ := h
              obtain ⟨r1, hr1, hr0, hus⟩ := ih r0 u1 r2 hsu
              obtain ⟨w, hw, hgw, hcs⟩ := scanGroup_sound o c (x :: t) g r0 hg
              refine ⟨r1, by rw [← hr, hr1], ?_, ?_⟩
              · rw [hcs, hr0, ← hu, hgw]
                simp
              · rw [← hu, hgw]
                have hshape : (o :: w ++ [c]) ++ u1 = o :: w ++ c :: u1 := by simp
                rw [hshape]
                exact .grp w u1 hw hus
        · rw [if_neg hxo] at h
          cases hsu : scanUnits o c n t with
          | none => simp [hsu] at h
          | some ur =>
            simp only [hsu] at h
            obtain ⟨u1, r2⟩ := ur
            simp only [Option.some_inj, Prod.mk.injEq] at h
            obtain ⟨hu, hr⟩ := h
            obtain ⟨r1, hr1, ht, hus⟩ := ih t u1 r2 hsu
            exact ⟨r1, by rw [← hr, hr1], by rw [← hu, ht]; simp,
              by rw [← hu]; exact .chr x u1 hxo hxc hus⟩

theorem scanUnits_complete (o c : Char) (hoc : o ≠ c) (u : List Char)
    (h : UnitSeq o c u) :
    ∀ f, u.length < f → ∀ r, scanUnits o c f (u ++ c :: r) = some (u, c :: r) := by
  induction h with
  | nil =>
    intro f hf r
    obtain ⟨n, rfl⟩ : ∃ n, f = n + 1 := ⟨f - 1, by omega⟩
    simp [scanUnits]
  | chr x t hxo hxc ht ih =>
    intro f hf r
    obtain ⟨n, rfl⟩ : ∃ n, f = n + 1 := ⟨f - 1, by omega⟩
    have hrec := ih n (by simp at hf; omega) r
    simp [scanUnits, hxc, hxo, hrec]
  | grp w t hw ht ih =>
    intro f hf r
    obtain ⟨n, rfl⟩ : ∃ n, f = n + 1 := ⟨f - 1, by omega⟩
    have heq : (o :: w ++ c :: t) ++ c :: r = o :: (w ++ c :: (t ++ c :: r)) := by simp
    rw [heq]
    have hg := scanGroup_complete o c w (t ++ c :: r) hw
    have hrec := ih n (by simp at hf; omega) r
    simp [scanUnits, hoc, hg, hrec]

theorem scanMatchAt_sound (o c : Char) (cs m rest : List Char)
    (h : scanMatchAt o c cs = some (m, rest)) :
    ∃ u, UnitSeq o c u ∧ m = o :: u ++ [c] ∧ cs = m ++ rest := by
  cases cs with
  | nil => simp [scanMatchAt] at h
  | cons x t =>
    rw [scanMatchAt] at h
    by_cases hxo : x = o
    · rw [if_pos hxo] at h
      cases hsu : scanUnits o c (t.length + 1) t with
      | none => simp [hsu] at h
      | some ur =>
        simp only [hsu] at h
        obtain ⟨u, r⟩ := ur
        cases r with
        | nil => simp at h
        | cons y r1 =>
          by_cases hyc : y = c
          · simp only [if_pos hyc, Option.some_inj, Prod.mk.injEq] at h
            obtain ⟨hm, hrest⟩ := h
            obtain ⟨r2, hr2, ht, hus⟩ := scanUnits_sound o c (t.length + 1) t u (y :: r1) hsu
            have hr12 : r1 = r2 := by
              have := hr2
              simp only [List.cons.injEq] at this
              exact this.2
            refine ⟨u, hus, by rw [← hm, hxo, hyc], ?_⟩
            rw [← hm, ← hrest, hxo, ht, hr12, hyc]
            simp
          · simp [if_neg hyc] at h
    · simp [if_neg hxo] at h

theorem scanMatchAt_complete (o c : Char) (hoc : o ≠ c) (u ext : List Char)
    (h : UnitSeq o c u) :
    scanMatchAt o c ((o :: u ++ [c]) ++ ext) = some (o :: u ++ [c], ext) := by
  have heq : (o :: u ++ [c]) ++ ext = o :: (u ++ c :: ext) := by simp
  rw [heq]
  have hsu := scanUnits_complete o c hoc u h ((u ++ c :: ext).length + 1)
    (by simp; omega) ext
  simp only [List.length_append, List.length_cons] at hsu
  simp [scanMatchAt, hsu]

theorem findAllBalanced_canonical (o c : Char) :
    ∀ n f cs, List.length cs ≤ n → List.length cs < f →
      findAllBalanced o c f cs = findAll o c cs := by
  intro n
  induction n with
  | zero =>
    intro f cs hn _
    have hcs : cs = [] := List.length_eq_zero.mp (Nat.le_antisymm hn (Nat.zero_le _))
    subst hcs
    cases f <;> rfl
  | succ n ih =>
    intro f cs hn hf
    cases cs with
    | nil => cases f <;> rfl
    | cons x t =>
      obtain ⟨f1, rfl⟩ : ∃ f1, f = f1 + 1 := ⟨f - 1, by omega⟩
      simp only [List.length_cons] at hn hf
      rw [findAll]
      simp only [List.length_cons]
      by_cases hxo : x = o
      · cases hs : scanMatchAt o c (x :: t) with
        | none =>
          rw [findAllBalanced, findAllBalanced, if_pos hxo, if_pos hxo]
          simp only [hs]
          rw [ih f1 t (by omega) (by omega), ih (t.length + 1) t (by omega) (by omega)]
        | some mr =>
          obtain ⟨m, r⟩ := mr
          obtain ⟨u, _, hm, hcs⟩ := scanMatchAt_sound o c (x :: t) m r hs
          have hmlen : 2 ≤ m.length := by
            rw [hm]
            simp
          have hrlen : r.length + 2 ≤ t.length + 1 := by
            have := congrArg List.length hcs
            simp at this
            omega
          rw [findAllBalanced, findAllBalanced, if_pos hxo, if_pos hxo]
          simp only [hs]
          rw [ih f1 r (by omega) (by omega), ih (t.length + 1) r (by omega) (by omega)]
      · rw [findAllBalanced, findAllBalanced, if_neg hxo, if_neg hxo]
        rw [ih f1 t (by omega) (by omega), ih (t.length + 1) t (by omega) (by omega)]

theorem findAll_skip (o c : Char) (A rest : List Char) (hA : ∀ ch ∈ A, ch ≠ o) :
    findAll o c (A ++ rest) = findAll o c rest := by
  induction A with
  | nil => simp
  | cons a t ih =>
    have ha : a ≠ o := hA a (by simp)
    have step : findAll o c ((a :: t) ++ rest) = findAllBalanced o c ((t ++ rest).length + 1) (t ++ rest) := by
      rw [List.cons_append, findAll]
      simp only [List.length_cons]
      rw [findAllBalanced, if_neg ha]
    rw [step]
    exact ih (fun ch hch => hA ch (by simp [hch]))

theorem findAll_match (o c : Char) (hoc : o ≠ c) (u rest : List Char)
    (h : UnitSeq o c u) :
    findAll o c ((o :: u ++ [c]) ++ rest)
      = String.mk (o :: u ++ [c]) :: findAll o c rest := by
  have hs := scanMatchAt_complete o c hoc u rest h
  have heq : (o :: u ++ [c]) ++ rest = o :: ((u ++ [c]) ++ rest) := by simp
  rw [heq] at hs ⊢
  rw [findAll]
  simp only [List.length_cons]
  rw [findAllBalanced, if_pos rfl]
  simp only [hs]
  rw [findAllBalanced_canonical o c (((u ++ [c]) ++ rest).length) (((u ++ [c]) ++ rest).length + 1) rest (by simp; omega) (by simp; omega)]

theorem findAll_sound (o c : Char) :
    ∀ f cs s, s ∈ findAllBalanced o c f cs →
      ∃ u, UnitSeq o c u ∧ s = String.mk (o :: u ++ [c]) := by
  intro f
  induction f with
  | zero => intro cs s h; simp [findAllBalanced] at h
  | succ n ih =>
    intro cs s h
    cases cs with
    | nil => simp [findAllBalanced] at h
    | cons x t =>
      rw [findAllBalanced] at h
      by_cases hxo : x = o
      · rw [if_pos hxo] at h
        cases hs : scanMatchAt o c (x :: t) with
        | none =>
          simp only [hs] at h
          exact ih t s h
        | some mr =>
          simp only [hs] at h
          obtain ⟨m, r⟩ := mr
          rcases List.mem_cons.mp h with rfl | hmem
          · obtain ⟨u, hus, hm, _⟩ := scanMatchAt_sound o c (x :: t) m r hs
            exact ⟨u, hus, by rw [hm]⟩
          · exact ih r s hmem
      · rw [if_neg hxo] at h
        exact ih t s h

theorem UnitSeq_prefix_count (o c : Char) (hoc : o ≠ c) (u : List Char)
    (h : UnitSeq o c u) :
    ∀ p q, u = p ++ q → p.count c ≤ p.count o := by
  induction h with
  | nil =>
    intro p q hpq
    have hp : p = [] := (List.append_eq_nil.mp hpq.symm).1
    subst hp
    simp
  | chr x t hxo hxc _ ih =>
    intro p q hpq
    cases p with
    | nil => simp
    | cons a p1 =>
      rw [List.cons_append] at hpq
      injection hpq with hax ht
      subst hax
      have := ih p1 q ht
      simp [List.count_cons, hxo, hxc]
      omega
  | grp w t hw _ ih =>
    intro p q hpq
    cases p with
    | nil => simp
    | cons a p1 =>
      rw [List.cons_append] at hpq
      have hpq' : o :: (w ++ c :: t) = a :: (p1 ++ q) := by simpa using hpq
      injection hpq' with hao hrest
      subst hao
      rcases List.append_eq_append_iff.mp hrest.symm with ⟨a2, ha2, hq2⟩ | ⟨c2, hc2, hq2⟩
      · -- p1 extends through w: p1 = w ++ a2 with c :: t = a2 ++ q ... (w = p1 ++ a2 case)
        -- here w = p1 ++ a2: p1 is a prefix of w, all non-delimiters
        have hcp1 : p1.count c = 0 := by
          rw [List.count_eq_zero]
          intro hmem
          exact (hw c (by rw [ha2]; exact List.mem_append_left _ hmem)).2 rfl
        simp [List.count_cons, hoc, Ne.symm hoc, hcp1]
      · -- p1 = w ++ c2 and q2 : c :: t = c2 ++ q
        subst hc2
        cases c2 with
        | nil =>
          have hcw : w.count c = 0 := by
            rw [List.count_eq_zero]
            intro hmem
            exact (hw c hmem).2 rfl
          simp [List.count_cons, List.count_append, hoc, Ne.symm hoc, hcw]
        | cons b c3 =>
          have hb : b = c ∧ t = c3 ++ q := by
            have hflip := hq2.symm
            rw [List.cons_append] at hflip
            injection hflip with h1 h2
            exact ⟨h1, h2.symm⟩
          rw [hb.1]
          have hih := ih c3 q hb.2
          have hcw : w.count c = 0 := by
            rw [List.count_eq_zero]
            intro hmem
            exact (hw c hmem).2 rfl
          have how : w.count o = 0 := by
            rw [List.count_eq_zero]
            intro hmem
            exact (hw o hmem).1 rfl
          simp [List.count_cons, List.count_append, hoc, Ne.symm hoc, hcw, how]
          omega

theorem firstParse_sorted_longest :
    ∀ (l : List String) (v : Json),
      l.Pairwise (fun a b => b.length ≤ a.length) → firstParse l = some v →
      ∃ cand ∈ l, jsonLoads cand = some v
        ∧ ∀ other ∈ l, (jsonLoads other).isSome = true → other.length ≤ cand.length := by
  intro l
  induction l with
  | nil => intro v _ h; simp [firstParse] at h
  | cons x xs ih =>
    intro v hp h
    rw [firstParse] at h
    cases hx : jsonLoads x with
    | some w =>
      simp only [hx, Option.some_inj] at h
      refine ⟨x, by simp, by rw [hx, h], ?_⟩
      intro other hother _
      rcases List.mem_cons.mp hother with rfl | hmem
      · exact le_refl _
      · exact (List.pairwise_cons.mp hp).1 other hmem
    | none =>
      simp only [hx] at h
      obtain ⟨cand, hc1, hc2, hc3⟩ := ih v (List.pairwise_cons.mp hp).2 h
      refine ⟨cand, by simp [hc1], hc2, ?_⟩
      intro other hother hsome
      rcases List.mem_cons.mp hother with rfl | hmem
      · rw [hx] at hsome
        simp at hsome
      · exact hc3 other hmem hsome

theorem firstParse_longest (l0 : List String) (v : Json)
    (h : firstParse (sortStable lenGe l0) = some v) :
    ∃ cand ∈ l0, jsonLoads cand = some v
      ∧ ∀ other ∈ l0, (jsonLoads other).isSome = true → other.length ≤ cand.length := by
  have hp : (sortStable lenGe l0).Pairwise (fun a b => b.length ≤ a.length) := by
    have hs := sortStable_pairwise lenGe
      (fun a b c hab hbc => decide_eq_true
        (le_trans (of_decide_eq_true hbc) (of_decide_eq_true hab)))
      (fun a b => by
        rcases le_total b.length a.length with hle | hle
        · exact Or.inl (decide_eq_true hle)
        · exact Or.inr (decide_eq_true hle)) l0
    exact hs.imp (fun hab => of_decide_eq_true hab)
  obtain ⟨cand, hc1, hc2, hc3⟩ := firstParse_sorted_longest _ v hp h
  exact ⟨cand, (mem_sortStable _ _ _).mp hc1, hc2,
    fun other ho hs => hc3 other ((mem_sortStable _ _ _).mpr ho) hs⟩

theorem pyStripChars_ne_nil (cs : List Char) (ch : Char) (hch : ch ∈ cs)
    (hws : pyWs ch = false) : pyStripChars cs ≠ [] := by
  intro h
  rw [pyStripChars] at h
  have h1 : (cs.dropWhile pyWs).reverse.dropWhile pyWs = [] := by
    simpa using h
  have h2 : ∀ a ∈ cs.dropWhile pyWs, pyWs a = true := by
    intro a ha
    exact List.dropWhile_eq_nil_iff.mp h1 a (List.mem_reverse.mpr ha)
  have h4 : pyWs ch = true := by
    have hsplit : ch ∈ cs.takeWhile pyWs ++ cs.dropWhile pyWs := by
      rw [List.takeWhile_append_dropWhile]
      exact hch
    rcases List.mem_append.mp hsplit with hmem | hmem
    · exact List.mem_takeWhile_imp hmem
    · exact h2 ch hmem
  rw [h4] at hws
  cases hws

theorem toList_append (a b : String) : (a ++ b).toList = a.toList ++ b.toList := rfl

theorem toList_mk (l : List Char) : (String.mk l).toList = l := rfl

theorem mk_toList (s : String) : String.mk s.toList = s := by
  cases s
  rfl

theorem UnitSeq_of_nonDelim (o c : Char) (u : List Char)
    (h : ∀ ch ∈ u, ch ≠ o ∧ ch ≠ c) : UnitSeq o c u := by
  induction u with
  | nil => exact .nil
  | cons x t ih =>
    exact .chr x t (h x (by simp)).1 (h x (by simp)).2
      (ih fun ch hch => h ch (by simp [hch]))

theorem findAll_nil_of_no_open (o c : Char) (cs : List Char)
    (h : ∀ ch ∈ cs, ch ≠ o) : findAll o c cs = [] := by
  have hsplit : cs = cs ++ [] := by simp
  rw [hsplit, findAll_skip o c cs [] h]
  rfl

/-- C4 counterexample: the well-formed object `\x7b"a": 1\x7d` parses on its
own (second conjunct), but embedded in the prose `x \x7b y ... \x7d z` the
extractor fails outright: the raw scan's only candidate swallows the stray
prose braces, the text between the braces makes it unparseable, and the inner
object is never tried. -/
theorem extract_prose_braces_counterexample :
    parse_llm_json "x \x7b y \x7b\"a\": 1\x7d \x7d z"
      = Except.error (PyError.couldNotExtract "x \x7b y \x7b\"a\": 1\x7d \x7d z")
    ∧ jsonLoads "\x7b\"a\": 1\x7d" = some (Json.obj [("a", Json.num "1")]) :=
  ⟨rfl, rfl⟩

/-- C4 (amended): for every serialized structured object within the nesting
depth the raw-scan pattern supports (one nested level), embedded in a larger
string whose surrounding prose contains no opening curly brace, `extract`
recovers a valid structured value; and the raw-scan object stage always
returns the value of a longest parseable candidate (candidates are tried
longest first, object pattern before array pattern). -/
theorem extract_embedded_recovery (A B m : String)
    (hA : ∀ ch ∈ A.toList, ch ≠ '{')
    (hB : ∀ ch ∈ B.toList, ch ≠ '{')
    (hm : ∃ u, UnitSeq '{' '}' u ∧ m.toList = '{' :: u ++ ['}'])
    (hv : (jsonLoads m).isSome = true) :
    (∃ v, parse_llm_json (A ++ m ++ B) = Except.ok v)
    ∧ ∀ (s : String) (v : Json),
        firstParse (sortStable lenGe (findAll '{' '}' s.toList)) = some v →
        ∃ cand ∈ findAll '{' '}' s.toList, jsonLoads cand = some v
          ∧ ∀ other ∈ findAll '{' '}' s.toList,
              (jsonLoads other).isSome = true → other.length ≤ cand.length := by
  constructor
  · obtain ⟨u, hus, hmu⟩ := hm
    have hoc : ('{' : Char) ≠ '}' := by decide
    have htl : (A ++ m ++ B).toList = A.toList ++ (m.toList ++ B.toList) := by
      rw [toList_append, toList_append, List.append_assoc]
    have hbrace : '{' ∈ (A ++ m ++ B).toList := by
      rw [htl, hmu]
      exact List.mem_append_right _ (List.mem_append_left _ (by simp))
    have hne := pyStripChars_ne_nil _ '{' hbrace rfl
    have hcond : ¬((pyStripChars (A ++ m ++ B).toList).isEmpty = true) := by
      simpa [List.isEmpty_iff] using hne
    cases hj : jsonLoads (A ++ m ++ B) with
    | some v => exact ⟨v, by rw [parse_llm_json, if_neg hcond, hj]⟩
    | none =>
      cases hmd : mdStage (A ++ m ++ B) with
      | some v => exact ⟨v, by rw [parse_llm_json, if_neg hcond, hj, hmd]⟩
      | none =>
        have hfa : findAll '{' '}' (A ++ m ++ B).toList = [m] := by
          rw [htl, findAll_skip _ _ _ _ hA, hmu,
            findAll_match _ _ hoc u _ hus,
            findAll_nil_of_no_open _ _ _ hB, ← hmu, mk_toList]
        obtain ⟨v, hv1⟩ := Option.isSome_iff_exists.mp hv
        have hraw : rawScanStage (A ++ m ++ B) = some v := by
          rw [rawScanStage, hfa]
          simp [sortStable, insertStable, firstParse, hv1]
        exact ⟨v, by rw [parse_llm_json, if_neg hcond, hj, hmd, hraw]⟩
  · intro s v hfp
    exact firstParse_longest _ v hfp

/-- Witness for C4 at a concrete object embedded in brace-free prose. -/
theorem extract_embedded_recovery_witness :
    ∃ v, parse_llm_json ("Answer: " ++ "\x7b\"is_valid\": true\x7d" ++ " thanks")
      = Except.ok v :=
  (extract_embedded_recovery "Answer: " " thanks" "\x7b\"is_valid\": true\x7d"
    (by decide) (by decide)
    ⟨String.toList "\"is_valid\": true",
      UnitSeq_of_nonDelim _ _ _ (by decide), rfl⟩
    rfl).1

/-- C9: for each of the two balanced patterns of the raw scan — objects
(utils.py line 67) and arrays (line 68) — the scan never merges two balanced
substrings (with the text between them) into one candidate: every nonempty
proper prefix of a candidate span has strictly more opening than closing
delimiters, so no candidate is the concatenation of a balanced substring and
anything else; and when the input consists of two complete matches separated
by text free of the opening delimiter, the scan yields exactly those two
candidates, each tried independently. -/
theorem extract_no_merge (o c : Char)
    (hd : (o = '{' ∧ c = '}') ∨ (o = '[' ∧ c = ']'))
    (input A B C m1 m2 : String)
    (hA : ∀ ch ∈ A.toList, ch ≠ o) (hB : ∀ ch ∈ B.toList, ch ≠ o)
    (hC : ∀ ch ∈ C.toList, ch ≠ o)
    (h1 : ∃ u, UnitSeq o c u ∧ m1.toList = o :: u ++ [c])
    (h2 : ∃ u, UnitSeq o c u ∧ m2.toList = o :: u ++ [c]) :
    (∀ s ∈ findAll o c input.toList, ∀ p q : List Char,
        s.toList = p ++ q → p ≠ [] → q ≠ [] → p.count c < p.count o)
    ∧ findAll o c (A ++ m1 ++ B ++ m2 ++ C).toList = [m1, m2] := by
  have hoc : o ≠ c := by
    rcases hd with ⟨ho, hc⟩ | ⟨ho, hc⟩ <;> rw [ho, hc] <;> decide
  constructor
  · intro s hs p q hpq hp hq
    obtain ⟨u, hus, hsu⟩ := findAll_sound o c (input.toList.length + 1)
      input.toList s hs
    have hlist : s.toList = o :: u ++ [c] := by
      rw [hsu, toList_mk]
    rw [hlist] at hpq
    cases p with
    | nil => exact absurd rfl hp
    | cons a p1 =>
      rw [List.cons_append, List.cons_append] at hpq
      injection hpq with ha hrest
      subst ha
      rcases List.append_eq_append_iff.mp hrest with ⟨a2, ha2, hq2⟩ | ⟨c2, hc2, hq2⟩
      · -- here p1 = u ++ a2 and [c] = a2 ++ q
        cases a2 with
        | nil =>
          rw [List.append_nil] at ha2
          rw [ha2]
          have hcount := UnitSeq_prefix_count o c hoc u hus u [] (by simp)
          simp [List.count_cons, hoc, Ne.symm hoc]
          omega
        | cons b a3 =>
          injection hq2 with hx hy
          have hqnil : q = [] := (List.append_eq_nil.mp hy.symm).2
          exact absurd hqnil hq
      · -- here u = p1 ++ c2: p1 is a proper prefix of the unit sequence
        have hcount := UnitSeq_prefix_count o c hoc u hus p1 c2 hc2
        simp [List.count_cons, hoc, Ne.symm hoc]
        omega
  · obtain ⟨u1, hu1, hm1⟩ := h1
    obtain ⟨u2, hu2, hm2⟩ := h2
    have htl : (A ++ m1 ++ B ++ m2 ++ C).toList
        = A.toList ++ (m1.toList ++ (B.toList ++ (m2.toList ++ C.toList))) := by
      rw [toList_append, toList_append, toList_append, toList_append]
      simp [List.append_assoc]
    rw [htl, findAll_skip _ _ _ _ hA, hm1, findAll_match _ _ hoc u1 _ hu1,
      findAll_skip _ _ _ _ hB, hm2, findAll_match _ _ hoc u2 _ hu2,
      findAll_nil_of_no_open _ _ _ hC, ← hm1, ← hm2, mk_toList, mk_toList]

/-- Witness for C9: two concrete objects separated by brace-free prose, and
two concrete arrays separated by bracket-free prose, are each found as
exactly two separate candidates of their pattern. -/
theorem extract_no_merge_witness :
    findAll '{' '}'
        ("one: " ++ "\x7b\"a\": 1\x7d" ++ " two: " ++ "\x7b\"b\": 2\x7d" ++ " end").toList
      = ["\x7b\"a\": 1\x7d", "\x7b\"b\": 2\x7d"]
    ∧ findAll '[' ']'
        ("one: " ++ "[1, 2]" ++ " two: " ++ "[3]" ++ " end").toList
      = ["[1, 2]", "[3]"] :=
  ⟨(extract_no_merge '{' '}' (Or.inl ⟨rfl, rfl⟩) "x" "one: " " two: " " end"
      "\x7b\"a\": 1\x7d" "\x7b\"b\": 2\x7d"
      (by decide) (by decide) (by decide)
      ⟨String.toList "\"a\": 1", UnitSeq_of_nonDelim _ _ _ (by decide), rfl⟩
      ⟨String.toList "\"b\": 2", UnitSeq_of_nonDelim _ _ _ (by decide), rfl⟩).2,
   (extract_no_merge '[' ']' (Or.inr ⟨rfl, rfl⟩) "x" "one: " " two: " " end"
      "[1, 2]" "[3]"
      (by decide) (by decide) (by decide)
      ⟨String.toList "1, 2", UnitSeq_of_nonDelim _ _ _ (by decide), rfl⟩
      ⟨String.toList "3", UnitSeq_of_nonDelim _ _ _ (by decide), rfl⟩).2⟩

end Orchestrator
